import Mathlib

/-!
A shallow embedding, in Lean 4, of the path-addressable change/validation
engine of the `io` repository (files `src/io.js`, `src/validate.js`,
`src/bag.js`).  JavaScript strings are modelled by Lean `String`
(operated on through their character lists), JavaScript values by the
`Value` inductive below, JavaScript objects by insertion-ordered
association lists, and thrown exceptions by `Except`.  The external
collaborators that the specification explicitly excludes (the reactive
observation substrate, the localization table, the host URL parser and
the `truthy` helper) are modelled from the specification's statement of
their interface; every such definition is marked in its doc string.
-/

/-! ## Character-list utilities (JS string primitives) -/

/-- `String.prototype.split(sep)` for a single-character separator,
on character lists.  `splitCh c []` is `[[]]`, matching `''.split('.')
=== ['']`. -/
def splitCh (c : Char) : List Char → List (List Char)
  | [] => [[]]
  | x :: xs =>
    match splitCh c xs with
    | [] => [[]]
    | s :: ss => if x = c then [] :: s :: ss else (x :: s) :: ss

/-- `Array.prototype.join(sep)` for a single-character separator. -/
def joinCh (c : Char) : List (List Char) → List Char
  | [] => []
  | [s] => s
  | s :: ss => s ++ c :: joinCh c ss

theorem splitCh_ne_nil (c : Char) (l : List Char) : splitCh c l ≠ [] := by
  induction l with
  | nil => simp [splitCh]
  | cons x xs ih =>
    simp only [splitCh]
    rcases h : splitCh c xs with _ | ⟨s, ss⟩
    · simp
    · by_cases hx : x = c <;> simp [hx]

theorem mem_splitCh (c : Char) (l : List Char) :
    ∀ s ∈ splitCh c l, c ∉ s := by
  induction l with
  | nil => intro s hs; simp [splitCh] at hs; simp [hs]
  | cons x xs ih =>
    intro s hs
    rcases h : splitCh c xs with _ | ⟨t, ts⟩
    · exact absurd h (splitCh_ne_nil c xs)
    · simp only [splitCh, h] at hs
      by_cases hx : x = c
      · simp only [hx, if_true, eq_self_iff_true, List.mem_cons] at hs
        rcases hs with rfl | rfl | hs
        · simp
        · exact ih s (by rw [h]; exact List.mem_cons_self s ts)
        · exact ih s (by rw [h]; exact List.mem_cons_of_mem t hs)
      · simp only [if_neg hx, List.mem_cons] at hs
        rcases hs with rfl | hs
        · intro hmem
          rcases List.mem_cons.mp hmem with hmem | hmem
          · exact hx hmem.symm
          · exact ih t (by rw [h]; exact List.mem_cons_self t ts) hmem
        · exact ih s (by rw [h]; exact List.mem_cons_of_mem t hs)

theorem splitCh_of_not_mem {c : Char} {l : List Char} (h : c ∉ l) :
    splitCh c l = [l] := by
  induction l with
  | nil => rfl
  | cons x xs ih =>
    have hx : x ≠ c := fun he => h (he ▸ List.mem_cons_self x xs)
    have hxs : c ∉ xs := fun hm => h (List.mem_cons_of_mem x hm)
    simp [splitCh, ih hxs, hx]

theorem splitCh_append {c : Char} {s : List Char} (hs : c ∉ s)
    (t : List Char) : splitCh c (s ++ c :: t) = s :: splitCh c t := by
  induction s with
  | nil =>
    simp only [List.nil_append, splitCh]
    rcases h : splitCh c t with _ | ⟨u, us⟩
    · exact absurd h (splitCh_ne_nil c t)
    · simp
  | cons x xs ih =>
    have hx : x ≠ c := fun he => hs (he ▸ List.mem_cons_self x xs)
    have hxs : c ∉ xs := fun hm => hs (List.mem_cons_of_mem x hm)
    show splitCh c (x :: (xs ++ c :: t)) = (x :: xs) :: splitCh c t
    simp only [splitCh]
    rw [ih hxs]
    simp [hx]

theorem splitCh_joinCh {c : Char} :
    ∀ {xs : List (List Char)}, (∀ s ∈ xs, c ∉ s) → xs ≠ [] →
      splitCh c (joinCh c xs) = xs := by
  intro xs
  induction xs with
  | nil => intro _ h; exact absurd rfl h
  | cons s ss ih =>
    intro hmem _
    rcases ss with _ | ⟨t, ts⟩
    · simp only [joinCh]
      exact splitCh_of_not_mem (hmem s (List.mem_cons_self s []))
    · have hjoin : joinCh c (s :: t :: ts) = s ++ c :: joinCh c (t :: ts) := rfl
      rw [hjoin, splitCh_append (hmem s (List.mem_cons_self s (t :: ts)))]
      rw [ih (fun u hu => hmem u (List.mem_cons_of_mem s hu)) (by simp)]

/-- Prefix test on character lists (used by `replaceFirstL`). -/
def hasPrefixCh : List Char → List Char → Bool
  | [], _ => true
  | _ :: _, [] => false
  | p :: ps, y :: ys => p == y && hasPrefixCh ps ys

/-- `String.prototype.replace(pat, rep)` with a string pattern: JS
replaces only the first occurrence of `pat`. -/
def replaceFirstL (pat rep : List Char) : List Char → List Char
  | [] => if pat.isEmpty then rep else []
  | x :: xs =>
    if hasPrefixCh pat (x :: xs) then rep ++ (x :: xs).drop pat.length
    else x :: replaceFirstL pat rep xs

/-- String wrapper for `replaceFirstL`. -/
def replaceFirstS (pat rep s : String) : String :=
  ⟨replaceFirstL pat.toList rep.toList s.toList⟩

/-- Digit character for `n % 10` (only called with arguments below 10). -/
def digC : Nat → Char
  | 0 => '0' | 1 => '1' | 2 => '2' | 3 => '3' | 4 => '4'
  | 5 => '5' | 6 => '6' | 7 => '7' | 8 => '8' | _ => '9'

/-- Decimal digit accumulator.  The first argument is a structural
bound on the digit count (any bound of at least the digit count gives
the decimal form; `natToChars` passes `n + 1`). -/
def natToCharsCore : Nat → Nat → List Char → List Char
  | 0, _, acc => acc
  | fuel + 1, n, acc =>
    if n < 10 then digC n :: acc
    else natToCharsCore fuel (n / 10) (digC (n % 10) :: acc)

/-- Decimal digit list of a natural number (JS `String(n)` for the
array indices the engine stringifies). -/
def natToChars (n : Nat) : List Char := natToCharsCore (n + 1) n []

/-- JS `String(n)` for a natural number. -/
def natToStr (n : Nat) : String := ⟨natToChars n⟩

theorem digC_ne_star (n : Nat) : digC n ≠ '*' := by
  unfold digC
  split <;> decide

theorem star_not_mem_natToCharsCore :
    ∀ (fuel n : Nat) (acc : List Char), '*' ∉ acc →
      '*' ∉ natToCharsCore fuel n acc := by
  intro fuel
  induction fuel with
  | zero => intro n acc h; simpa [natToCharsCore] using h
  | succ f ih =>
    intro n acc h
    unfold natToCharsCore
    split
    · intro hmem
      rcases List.mem_cons.mp hmem with he | hm
      · exact digC_ne_star n he.symm
      · exact h hm
    · refine ih (n / 10) (digC (n % 10) :: acc) ?_
      intro hm
      rcases List.mem_cons.mp hm with he | hm2
      · exact digC_ne_star (n % 10) he.symm
      · exact h hm2

theorem star_not_mem_natToChars (n : Nat) : '*' ∉ natToChars n :=
  star_not_mem_natToCharsCore (n + 1) n [] (by simp)

/-! ## Path segment operations (dot-joined path strings) -/

/-- `path.split('.')` on a Lean `String`. -/
def strSegs (s : String) : List String :=
  (splitCh '.' s.toList).map (fun l => (⟨l⟩ : String))

/-- `segments.join('.')`. -/
def strJoin (xs : List String) : String :=
  ⟨joinCh '.' (xs.map String.toList)⟩

/-- `path.includes('.')`. -/
def containsDot (s : String) : Bool := s.toList.contains '.'

/-- `message.includes(':')`. -/
def containsColon (s : String) : Bool := s.toList.contains ':'

/-! ## Lodash word helpers

`_.camelCase` and `_.lowerCase` split a string into words (maximal
alphanumeric runs, further split before an upper-case letter that
follows a lower-case letter) and reassemble them.  This model covers
the rule-name and path alphabets this code base uses; lodash's extra
handling of acronym runs and Unicode is out of scope. -/

/-- Split one alphanumeric run before each lower-to-upper boundary. -/
def splitHumps : List Char → List (List Char)
  | [] => [[]]
  | [c] => [[c]]
  | a :: b :: rest =>
    match splitHumps (b :: rest) with
    | [] => [[a]]
    | w :: ws =>
      if a.isLower && b.isUpper then [a] :: w :: ws
      else (a :: w) :: ws

/-- Maximal alphanumeric runs of a character list. -/
def alnumRuns : List Char → List (List Char)
  | [] => []
  | c :: cs =>
    let rest := alnumRuns cs
    if c.isAlphanum then
      match rest with
      | [] => [[c]]
      | w :: ws =>
        match cs with
        | [] => [[c]]
        | d :: _ => if d.isAlphanum then (c :: w) :: ws else [c] :: w :: ws
    else rest

/-- Lodash-style word list of a string. -/
def wordsOf (s : String) : List (List Char) :=
  ((alnumRuns s.toList).flatMap splitHumps).filter (fun w => ¬ w.isEmpty)

/-- Capitalize the first character of a word. -/
def capWord : List Char → List Char
  | [] => []
  | c :: cs => c.toUpper :: cs

/-- `_.camelCase` (restricted to the ASCII rule-name alphabet). -/
def lodashCamelCase (s : String) : String :=
  match wordsOf s with
  | [] => ""
  | w :: ws =>
    ⟨w.map Char.toLower ++ (ws.map (fun v => capWord (v.map Char.toLower))).flatten⟩

/-- `_.lowerCase` (space-separated lower-cased words). -/
def lodashLowerCase (s : String) : String :=
  ⟨joinCh ' ' ((wordsOf s).map (fun w => w.map Char.toLower))⟩

/-! ## JavaScript values -/

/-- A JavaScript value as the engine manipulates it: `null`,
`undefined`, booleans, numbers (integral in all the data this engine
handles), strings, arrays and plain objects (insertion-ordered key
lists). -/
inductive Value where
  | vNull
  | vUndef
  | vBool (b : Bool)
  | vNum (n : Int)
  | vStr (s : String)
  | vArr (xs : List Value)
  | vObj (fs : List (String × Value))

open Value

/-- JS truthiness (`!!v`) for the modelled values. -/
def jsTruthy : Value → Bool
  | vNull => false
  | vUndef => false
  | vBool b => b
  | vNum n => n != 0
  | vStr s => s != ""
  | vArr _ => true
  | vObj _ => true

/-- Association-list lookup (first binding wins, as for JS objects,
which cannot hold duplicate keys). -/
def lookupKey {α : Type} : List (String × α) → String → Option α
  | [], _ => none
  | e :: es, k => if e.1 == k then some e.2 else lookupKey es k

/-- JS object property write: overwrite in place if the key exists
(property order is preserved), else append. -/
def setKey {α : Type} (m : List (String × α)) (k : String) (v : α) :
    List (String × α) :=
  if m.any (fun e => e.1 == k) then
    m.map (fun e => if e.1 == k then (k, v) else e)
  else m ++ [(k, v)]

/-- `delete obj[k]`. -/
def delKey {α : Type} (m : List (String × α)) (k : String) :
    List (String × α) :=
  m.filter (fun e => e.1 != k)

/-- `Object.assign(target, source)`: each source binding written into
the target in source order. -/
def objAssign {α : Type} (tgt src : List (String × α)) :
    List (String × α) :=
  src.foldl (fun acc e => setKey acc e.1 e.2) tgt

/-- Is a string a canonical JS array index for the model's purposes
(non-empty, all digits)?  (JS restricts further to no-leading-zero
forms; the engine only ever builds indices via `String(i)`.) -/
def isIndexStr (s : String) : Bool :=
  ¬ s.toList.isEmpty && s.toList.all Char.isDigit

/-- Digit-string to `Nat` (little helper for array indexing). -/
def strToNat (s : String) : Nat :=
  s.toList.foldl (fun acc c => acc * 10 + (c.toNat - 48)) 0

/-- Single JS property access `v[key]`.  Objects look the key up,
arrays and strings accept index keys; other accesses yield
`undefined`.  (JS throws on property access of `null`/`undefined`;
that case is unexercised by the modelled scenarios and yields
`undefined` here.  `length` properties are likewise out of scope.) -/
def jsIndex (v : Value) (key : String) : Value :=
  match v with
  | vObj fs => (lookupKey fs key).getD vUndef
  | vArr xs => if isIndexStr key then (xs.getD (strToNat key) vUndef) else vUndef
  | vStr s =>
    if isIndexStr key && decide (strToNat key < s.toList.length) then
      vStr ⟨[s.toList.getD (strToNat key) ' ']⟩
    else vUndef
  | _ => vUndef

/-- Lodash `_.get(object, path)` for a dot-joined string path:
splits on dots and walks, stopping with `undefined` as soon as the
current value is `null`/`undefined` (lodash's `baseGet` loop). -/
def lodashGetSegs : List String → Value → Value
  | [], v => v
  | seg :: rest, v =>
    match v with
    | vNull => vUndef
    | vUndef => vUndef
    | w => lodashGetSegs rest (jsIndex w seg)

def lodashGet (v : Value) (path : String) : Value :=
  lodashGetSegs (strSegs path) v

/-- `Object.entries(v)`: object fields in order; arrays and strings
enumerate indexed entries; primitives have none. -/
def jsEntries (v : Value) : List (String × Value) :=
  match v with
  | vObj fs => fs
  | vArr xs => (xs.enum.map (fun e => (natToStr e.1, e.2)))
  | vStr s => (s.toList.enum.map (fun e => (natToStr e.1, vStr ⟨[e.2]⟩)))
  | _ => []

/-! ## MessageBag (`src/bag.js`)

A `Bag` holds an insertion-ordered map from concrete path to message
list, plus an optional label.  Operations that call `this.emit('update')`
are modelled as returning the number of `update` notifications they
emit alongside the new bag state. -/

structure BagS where
  entries : List (String × List String)
  label : Option String
deriving Repr

/-- A value passed to `Bag.record`: either a bare string or a list. -/
inductive MsgV where
  | one (s : String)
  | many (l : List String)

/-- `record`'s lodash `mapValues` body: coerce a bare string into a
one-element list. -/
def coerceMsg : MsgV → List String
  | .one s => [s]
  | .many l => l

/-- `Bag.has(field)`. -/
def bagHas (b : BagS) (field : String) : Bool :=
  (lookupKey b.entries field).isSome

/-- The key `Bag.get` reads: `field.replace('*', index)` when an index
is given (JS `replace` with a string pattern touches only the first
`*`), else `field` itself. -/
def bagKeyOf (field : String) (index : Option Nat) : String :=
  match index with
  | some i => replaceFirstS "*" (natToStr i) field
  | none => field

/-- `Bag.get(field, index)`.  Returns the first stored message,
prefixed with `label + ': '` when a (truthy) label is set and the
message does not already contain a colon.  An entry that is present
but empty would make the JS code fault on `[][0].includes`; the bags
this engine builds never store empty lists, and the model returns
`none` there. -/
def bagGet (b : BagS) (field : String) (index : Option Nat) : Option String :=
  match lookupKey b.entries (bagKeyOf field index) with
  | none => none
  | some [] => none
  | some (m :: _) =>
    some (match b.label with
      | some l => if l != "" && !(containsColon m) then l ++ ": " ++ m else m
      | none => m)

/-- `Bag.record(messages)`: merge the coerced entries into the bag
(`Object.assign`) and emit one `update`. -/
def bagRecord (b : BagS) (messages : List (String × MsgV)) : BagS × Nat :=
  ({ b with entries := objAssign b.entries (messages.map (fun e => (e.1, coerceMsg e.2))) }, 1)

/-- `Bag.record` specialised to message-list maps (what `Io.validate`
passes when the validator throws its error map). -/
def bagRecordL (b : BagS) (messages : List (String × List String)) : BagS × Nat :=
  bagRecord b (messages.map (fun e => (e.1, MsgV.many e.2)))

/-- `Bag.replace(messages)`: wholesale overwrite plus one `update`. -/
def bagReplace (b : BagS) (messages : List (String × List String)) : BagS × Nat :=
  ({ b with entries := messages }, 1)

/-- `Bag.clear(field?)`.  The guard is JS truthiness of `field`: a
missing argument *or an empty-string path* resets the whole bag and
emits `update`; a non-empty path deletes just that key and emits
nothing. -/
def bagClear (b : BagS) (field : Option String) : BagS × Nat :=
  match field with
  | some f =>
    if f != "" then ({ b with entries := delKey b.entries f }, 0)
    else ({ b with entries := [] }, 1)
  | none => ({ b with entries := [] }, 1)

/-! ## `Io.toWildcardPath` (`src/io.js` lines 320–328)

Splits on `.`, replaces each segment matching `/^\d*$/` (every
character a digit — the empty segment vacuously matches) with `*`,
and rejoins. -/

/-- The per-segment regex test `/^\d*$/.test(segment)`. -/
def segMatchesDigits (seg : List Char) : Bool := seg.all Char.isDigit

def toWildcardSegsL (cs : List Char) : List (List Char) :=
  (splitCh '.' cs).map (fun seg => if segMatchesDigits seg then ['*'] else seg)

/-- `Io.toWildcardPath(path)`. -/
def toWildcardPath (p : String) : String :=
  ⟨joinCh '.' (toWildcardSegsL p.toList)⟩

theorem toWildcardSegsL_ne_nil (cs : List Char) : toWildcardSegsL cs ≠ [] := by
  unfold toWildcardSegsL
  intro h
  exact splitCh_ne_nil '.' cs (List.map_eq_nil_iff.mp h)

theorem toWildcardSegsL_no_dot (cs : List Char) :
    ∀ s ∈ toWildcardSegsL cs, '.' ∉ s := by
  intro s hs
  unfold toWildcardSegsL at hs
  rcases List.mem_map.mp hs with ⟨seg, hseg, heq⟩
  by_cases hdig : segMatchesDigits seg
  · rw [← heq]
    simp [hdig]
  · rw [← heq]
    simp only [hdig, Bool.false_eq_true, if_false]
    exact mem_splitCh '.' cs seg hseg

theorem toWildcardSegsL_fixed (cs : List Char) :
    ∀ s ∈ toWildcardSegsL cs,
      (if segMatchesDigits s then ['*'] else s) = s := by
  intro s hs
  unfold toWildcardSegsL at hs
  rcases List.mem_map.mp hs with ⟨seg, _, heq⟩
  by_cases hdig : segMatchesDigits seg
  · rw [← heq]
    simp only [hdig, if_true]
    have : segMatchesDigits ['*'] = false := by decide
    simp [this]
  · rw [← heq]
    simp [hdig]

/-- C3: `Io.toWildcardPath` replaces exactly the segments whose every
character is a digit (the `/^\d*$/` test, under which the empty
segment also counts as purely numeric) with `*`, leaves every other
segment unchanged, and is idempotent. -/
theorem c3_toWildcardPath_wildcards_and_idempotent (p : String) :
    strSegs (toWildcardPath p) =
      (strSegs p).map (fun seg => if seg.toList.all Char.isDigit then "*" else seg)
    ∧ toWildcardPath (toWildcardPath p) = toWildcardPath p := by
  have hround : splitCh '.' (joinCh '.' (toWildcardSegsL p.toList)) =
      toWildcardSegsL p.toList :=
    splitCh_joinCh (toWildcardSegsL_no_dot p.toList) (toWildcardSegsL_ne_nil p.toList)
  constructor
  · show (splitCh '.' (joinCh '.' (toWildcardSegsL p.toList))).map
        (fun l => (⟨l⟩ : String)) = _
    rw [hround]
    unfold toWildcardSegsL strSegs
    rw [List.map_map, List.map_map]
    apply List.map_congr_left
    intro seg _
    show (⟨if segMatchesDigits seg then ['*'] else seg⟩ : String) =
      if (String.mk seg).toList.all Char.isDigit then "*" else String.mk seg
    by_cases hdig : segMatchesDigits seg
    · have : (String.mk seg).toList.all Char.isDigit = true := hdig
      simp only [hdig, if_true, this]
    · have : (String.mk seg).toList.all Char.isDigit = false := by
        simpa [segMatchesDigits] using hdig
      simp only [hdig, Bool.false_eq_true, if_false, this]
  · show (⟨joinCh '.' (toWildcardSegsL
        (String.toList ⟨joinCh '.' (toWildcardSegsL p.toList)⟩))⟩ : String) = _
    have htl : String.toList ⟨joinCh '.' (toWildcardSegsL p.toList)⟩ =
        joinCh '.' (toWildcardSegsL p.toList) := rfl
    rw [htl]
    have hfix : toWildcardSegsL (joinCh '.' (toWildcardSegsL p.toList)) =
        toWildcardSegsL p.toList := by
      unfold toWildcardSegsL
      conv_lhs => rw [show splitCh '.' (joinCh '.' ((splitCh '.' p.toList).map
        (fun seg => if segMatchesDigits seg then ['*'] else seg))) =
        toWildcardSegsL p.toList from hround]
      unfold toWildcardSegsL
      rw [← List.map_id ((splitCh '.' p.toList).map
        (fun seg => if segMatchesDigits seg then ['*'] else seg))]
      rw [List.map_map]
      apply List.map_congr_left
      intro s hs
      show (if segMatchesDigits s then ['*'] else s) = id s
      exact toWildcardSegsL_fixed p.toList s hs
    rw [hfix]
    rfl

/-! ## RuleEngine (`src/validate.js`)

`new Validate(data, rules, customTest, overrideIndex)` runs
`validate()` in its constructor; `validate()` either returns normally
(pass) or throws.  Three kinds of values are thrown: the map of
failing fields, the fatal unknown-rule string, and host `TypeError`s
(from `value.entries()` on a non-array); `VErr` models all three.

The source class also defines `date`, `time`, `integer`, `email` and
`min` predicates; they delegate to external libraries (`moment`,
`validator`) or to floating-point numeric coercion and are outside
the modelled subset.  Every claim settled in this file exercises only
the modelled rule names. -/

/-- A parsed rule: `{method, arguments}`. -/
structure RuleT where
  method : String
  arguments : List String

/-- A rule-map value: the string form `"a|b:c,d"` or the list form
(a list of rule strings, which is what `parseRules` maps over). -/
inductive RulesSpec where
  | rstr (s : String)
  | rlist (l : List String)

/-- `parseRule(rule)`: split off the first `:`-delimited argument
pack (`'a:b:c'.split(':')[1]` is only the segment between the first
two colons, as in the source). -/
def parseRule (r : String) : RuleT :=
  match splitCh ':' r.toList with
  | [] => ⟨r, []⟩
  | [m] => ⟨⟨m⟩, []⟩
  | m :: a :: _ => ⟨⟨m⟩, (splitCh ',' a).map (fun l => (⟨l⟩ : String))⟩

/-- `parseRules(rules)`. -/
def parseRules : RulesSpec → List RuleT
  | .rstr s => (splitCh '|' s.toList).map (fun l => parseRule ⟨l⟩)
  | .rlist l => l.map parseRule

/-- `parseRules` when the looked-up rule value may be `undefined`
(`_.map(undefined, ...)` is `[]`). -/
def parseRulesO : Option RulesSpec → List RuleT
  | none => []
  | some s => parseRules s

/-- Modelled from the spec: localization is an external collaborator
(`Push.app.$t('validation.' + name)` reads an external message
table).  Messages are represented by their lookup keys. -/
def localize (name : String) : String := "validation." ++ name

/-- Modelled from the spec: the `url` predicate delegates to the host
`URL` constructor ("value parses as an absolute URL").  Modelled as a
non-empty alphabetic scheme, `://`, and a non-empty remainder;
non-string values do not parse. -/
def isAbsURL (v : Value) : Bool :=
  match v with
  | vStr s =>
    let cs := s.toList
    let sch := cs.takeWhile Char.isAlpha
    !sch.isEmpty && hasPrefixCh [':', '/', '/'] (cs.drop sch.length)
      && !((cs.drop (sch.length + 3)).isEmpty)
  | _ => false

/-- Outcome of one rule predicate: return normally, signal
break-to-next-field (`BreakToNextField`), or throw a message. -/
inductive RuleRes where
  | pass
  | brk
  | fail (msg : String)

/-- The `required` predicate: a non-empty array, or any other truthy
value (`value && value !== null`). -/
def requiredR (subject : Value) : RuleRes :=
  match subject with
  | vArr xs => if xs.isEmpty then .fail (localize "required") else .pass
  | v => if jsTruthy v then .pass else .fail (localize "required")

/-- The modelled rule-name set (`typeof this[name] === 'function'`
restricted to the dependency-free predicates). -/
def isKnownMethod (m : String) : Bool :=
  m == "nullable" || m == "required" || m == "requiredWith" || m == "url"
    || m == "string" || m == "array" || m == "object" || m == "boolean"
    || m == "accepted"

/-- The `nullable` predicate: a falsy value signals
`BreakToNextField`. -/
def nullableR (subject : Value) : RuleRes :=
  if jsTruthy subject then .pass else .brk

/-- The `requiredWith` predicate consults the external `truthy`
helper on the root data (modelled from the spec as JS truthiness) and
delegates to `required`. -/
def requiredWithR (data : Value) (subject : Value) (args : List String) : RuleRes :=
  if jsTruthy (jsIndex data (args.headD "")) then requiredR subject else .pass

/-- The `url` predicate. -/
def urlR (subject : Value) : RuleRes :=
  if isAbsURL subject then .pass else .fail (localize "url")

/-- The `string` predicate (`null` or a string passes). -/
def stringR (subject : Value) : RuleRes :=
  match subject with
  | vNull => .pass
  | vStr _ => .pass
  | _ => .fail (localize "string")

/-- The `array` predicate. -/
def arrayR (subject : Value) : RuleRes :=
  match subject with
  | vArr _ => .pass
  | _ => .fail (localize "array")

/-- The `object` predicate: `typeof value === 'object'`, which JS
satisfies for plain objects, arrays and `null` alike. -/
def objectR (subject : Value) : RuleRes :=
  match subject with
  | vNull => .pass
  | vArr _ => .pass
  | vObj _ => .pass
  | _ => .fail (localize "object")

/-- The `boolean` predicate. -/
def booleanR (subject : Value) : RuleRes :=
  match subject with
  | vBool _ => .pass
  | _ => .fail (localize "boolean")

/-- The `accepted` predicate (`true` only). -/
def acceptedR (subject : Value) : RuleRes :=
  match subject with
  | vBool true => .pass
  | _ => .fail (localize "accepted")

/-- Dispatch of one modelled predicate by (camel-cased) name. -/
def runRule (data : Value) (m : String) (subject : Value) (args : List String) : RuleRes :=
  if m == "nullable" then nullableR subject
  else if m == "required" then requiredR subject
  else if m == "requiredWith" then requiredWithR data subject args
  else if m == "url" then urlR subject
  else if m == "string" then stringR subject
  else if m == "array" then arrayR subject
  else if m == "object" then objectR subject
  else if m == "boolean" then booleanR subject
  else if m == "accepted" then acceptedR subject
  else .fail (localize "unknown")

/-- The per-field pipeline loop of `validate()` (source lines
207–223): unknown names throw the fatal configuration string; a
`BreakToNextField` result stops the loop; thrown messages accumulate
in order, after `{name}` substitution. -/
def pipelineLoop (data : Value) (field : String) (subject : Value) :
    List RuleT → Except String (List String)
  | [] => .ok []
  | r :: rs =>
    let m := lodashCamelCase r.method
    if isKnownMethod m then
      match runRule data m subject r.arguments with
      | .pass => pipelineLoop data field subject rs
      | .brk => .ok []
      | .fail msg =>
        match pipelineLoop data field subject rs with
        | .error e => .error e
        | .ok ms => .ok (replaceFirstS "{name}" (lodashLowerCase field) msg :: ms)
    else .error (m ++ "() is not a validator method")

/-- The error map thrown by `validate()` (concrete path to message
list). -/
abbrev ErrMap := List (String × List String)

/-- A value thrown out of `new Validate(...)`, extended with an
`outOfFuel` marker: the model bounds the nesting depth of recursive
per-element validations by a fuel parameter, and `outOfFuel` (which
always aborts the whole run) marks exhaustion of that bound.  It is a
model artifact, never JS behaviour; every concrete evaluation below
supplies ample fuel, and the universally quantified theorems hold for
every fuel. -/
inductive VErr where
  | errs (m : ErrMap)
  | fatal (s : String)
  | crash
  | outOfFuel

/-- `this._overrideIndex || index` (`0` is falsy). -/
def resolveIdx : Option Nat → Nat → Nat
  | some k, i => if k ≠ 0 then k else i
  | none, i => i

/-- The validator's concrete error key for one array element:
`field.replace('*', this._overrideIndex || index)` — only the first
`*` is substituted. -/
def wildcardConcreteKey (field : String) (oi : Option Nat) (index : Nat) : String :=
  replaceFirstS "*" (natToStr (resolveIdx oi index)) field

/-- The tail of the field loop shared by every field: fetch
`_.get(this._data, field)`, set `this._bag[field]`, run the
pipeline. -/
def vPipeline (data : Value) (field : String) (spec : Option RulesSpec) (bag : ErrMap) :
    Except VErr ErrMap :=
  match pipelineLoop data field (lodashGet data field) (parseRulesO spec) with
  | .error s => .error (.fatal s)
  | .ok msgs => .ok (setKey bag field msgs)

/-- The per-element loop under a `*` node: validate
`{[field.split('.').pop()]: rules}` against each element (through the
supplied `inner` validator) and catch whatever it throws.  A thrown
error map writes each of its values to the same substituted key (last
one wins); a thrown fatal string is `for..in`-enumerated by index, so
the last character wins (JS stores the bare character; it is held
here as a one-element list, which is how it would re-enter a `Bag`);
a thrown `TypeError` has no own enumerable properties, so nothing is
written. -/
def vStarLoopF (inner : Value → List (String × Option RulesSpec) → Except VErr Unit)
    (oi : Option Nat) (field : String) (spec : Option RulesSpec) :
    List Value → Nat → ErrMap → Except VErr ErrMap
  | [], _, bag => .ok bag
  | item :: more, idx, bag =>
    let baseName := (strSegs field).getLast?.getD ""
    match inner item [(baseName, spec)] with
    | .error .outOfFuel => .error .outOfFuel
    | .ok () => vStarLoopF inner oi field spec more (idx + 1) bag
    | .error (.errs m) =>
      vStarLoopF inner oi field spec more (idx + 1)
        (m.foldl (fun b e => setKey b (wildcardConcreteKey field oi idx) e.2) bag)
    | .error (.fatal s) =>
      vStarLoopF inner oi field spec more (idx + 1)
        (match s.toList.getLast? with
          | none => bag
          | some c => setKey bag (wildcardConcreteKey field oi idx) [⟨[c]⟩])
    | .error .crash => vStarLoopF inner oi field spec more (idx + 1) bag

/-- The `for (let node of nodes)` descent of a dotted field: a `*`
node iterates the array at the current position (crashing, as the
source does on `value.entries()`, for non-arrays); any other node
just re-indexes the running value (which the source never reads
afterwards). -/
def vDescendF (inner : Value → List (String × Option RulesSpec) → Except VErr Unit)
    (oi : Option Nat) (field : String) (spec : Option RulesSpec) :
    List String → Value → ErrMap → Except VErr ErrMap
  | [], _, bag => .ok bag
  | node :: ns, v, bag =>
    if node = "*" then
      match v with
      | vArr items =>
        match vStarLoopF inner oi field spec items 0 bag with
        | .error e => .error e
        | .ok bag1 => vDescendF inner oi field spec ns v bag1
      | _ => .error .crash
    else vDescendF inner oi field spec ns (jsIndex v node) bag

/-- One iteration of the `for (let field in this._rules)` loop: for a
dotted field, fetch `this._data[nodes.shift()]`, `continue` when it
is `undefined`, otherwise descend the remaining nodes; in either
fall-through case run the shared pipeline tail. -/
def vFieldStep (inner : Value → List (String × Option RulesSpec) → Except VErr Unit)
    (data : Value) (oi : Option Nat) (field : String) (spec : Option RulesSpec)
    (bag : ErrMap) : Except VErr ErrMap :=
  if containsDot field then
    let nodes := strSegs field
    match jsIndex data (nodes.headD "") with
    | vUndef => .ok bag
    | v0 =>
      match vDescendF inner oi field spec nodes.tail v0 bag with
      | .error e => .error e
      | .ok bag1 => vPipeline data field spec bag1
  else vPipeline data field spec bag

/-- The `for (let field in this._rules)` loop of `validate()`. -/
def vFieldsGoF (inner : Value → List (String × Option RulesSpec) → Except VErr Unit)
    (data : Value) (oi : Option Nat) :
    List (String × Option RulesSpec) → ErrMap → Except VErr ErrMap
  | [], bag => .ok bag
  | (field, spec) :: rest, bag =>
    match vFieldStep inner data oi field spec bag with
    | .error e => .error e
    | .ok bag2 => vFieldsGoF inner data oi rest bag2

/-- The body of `validate()`: run the field loop, keep the non-empty
message lists (in insertion order), merge the custom-test result, and
throw if anything is left. -/
def vNewBody (inner : Value → List (String × Option RulesSpec) → Except VErr Unit)
    (data : Value) (rules : List (String × Option RulesSpec))
    (customTest : Option ErrMap) (oi : Option Nat) : Except VErr Unit :=
  match vFieldsGoF inner data oi rules [] with
  | .error e => .error e
  | .ok bag =>
    let filled := bag.filter (fun e => decide (e.2.length > 0))
    let filled2 := match customTest with
      | none => filled
      | some m => objAssign filled m
    if filled2.length > 0 then .error (.errs filled2) else .ok ()

/-- `new Validate(data, rules, customTest, overrideIndex)` (the
constructor runs `validate()`).  The recursive per-element validation
passes no custom test and no override index, exactly as the source
does at line 190. -/
def vNew : Nat → Value → List (String × Option RulesSpec) → Option ErrMap →
    Option Nat → Except VErr Unit
  | 0, _, _, _, _ => .error .outOfFuel
  | fuel + 1, data, rules, customTest, oi =>
    vNewBody (fun item rs => vNew fuel item rs none none) data rules customTest oi

/-! ## `Io.validate` (`src/io.js` lines 300–314)

`Io.validate({path})` builds a one-entry rule map keyed by the
wildcard form of the changed path, runs the validator, and on success
clears that single path from the error bag.  Its `catch` records
*whatever* was thrown into the error bag and returns it: a thrown
error map is recorded as such; a thrown fatal string is run through
lodash `mapValues`, which enumerates a string's indices, yielding one
single-character entry per index; a thrown `TypeError` has no own
enumerable properties, so an empty record is merged (still emitting
`update`). -/

/-- What `Io.onChange` receives back from `Io.validate` and emits as
the `errors` field of the `change` event. -/
inductive ChangeErrors where
  | emptyObj
  | errMap (m : ErrMap)
  | fatalStr (s : String)
  | crashObj
  | outOfFuel
deriving Repr, DecidableEq

/-- Lodash `mapValues(s, m => Array.isArray(m) ? m : [m])` applied to
a thrown string: index-keyed single-character entries. -/
def stringEntries (s : String) : List (String × MsgV) :=
  s.toList.enum.map (fun e => (natToStr e.1, MsgV.one ⟨[e.2]⟩))

/-- `Io.getRules(path)`: wildcard-ify a dotted path, then look the
rule value up (possibly `undefined`). -/
def getRules (validation : List (String × RulesSpec)) (path : String) :
    Option RulesSpec :=
  lookupKey validation (if containsDot path then toWildcardPath path else path)

/-- `Io.validate({path})`: returns the updated error bag and the
`errors` value handed to the `change` event. -/
def ioValidate (fuel : Nat) (form : Value) (validation : List (String × RulesSpec))
    (errors : BagS) (path : String) : BagS × ChangeErrors :=
  let rules := getRules validation path
  match vNew fuel form [(toWildcardPath path, rules)] none none with
  | .ok () => ((bagClear errors (some path)).1, .emptyObj)
  | .error (.errs m) => ((bagRecordL errors m).1, .errMap m)
  | .error (.fatal s) => ((bagRecord errors (stringEntries s)).1, .fatalStr s)
  | .error .crash => ((bagRecord errors []).1, .crashObj)
  | .error .outOfFuel => (errors, .outOfFuel)

/-- `Io.onChange(payload)` republishes `Io.validate`'s return value
unchanged as the `errors` field of the emitted `change` event. -/
def onChangeEventErrors (fuel : Nat) (form : Value)
    (validation : List (String × RulesSpec)) (errors : BagS) (path : String) :
    ChangeErrors :=
  (ioValidate fuel form validation errors path).2

/-- The feedback key built by `Io.createFeedback` for one array
element: `key.replace('*', index)` (source line 118) — JS `replace`
with a string pattern substitutes only the first `*`. -/
def feedbackKey (key : String) (index : Nat) : String :=
  replaceFirstS "*" (natToStr index) key

/-! ## Claims C1, C5 (concrete end-to-end evaluations) -/

/-- C1: the spec's end-to-end wildcard scenario fails on the code.
For the tree `{services: [{url: ...}]}` and rule map
`{"services.*.url": "required|url"}`, the dotted branch of
`validate()` falls through to the shared pipeline tail, which runs
`required|url` on `_.get(data, 'services.*.url')` — `undefined` — and
therefore *always* records messages under the literal wildcard key.
Changing `services[0].url` to `"not-a-url"` hands the `change` event
the errors map `{"services.0.url": [url], "services.*.url":
[required, url]}` (not exactly `{"services.0.url": [url]}`);
changing it to `"https://example.com"` hands it
`{"services.*.url": [required, url]}` (not `{}`), the success branch
that clears the bag is never reached, and the error bag still has an
entry for `services.0.url`. -/
theorem c1_wildcard_scenario_diverges :
    (let rules := [("services.*.url", RulesSpec.rstr "required|url")]
     let step1 := ioValidate 5
       (vObj [("services", vArr [vObj [("url", vStr "not-a-url")]])])
       rules ⟨[], some "Error"⟩ "services.0.url"
     let step2 := ioValidate 5
       (vObj [("services", vArr [vObj [("url", vStr "https://example.com")]])])
       rules step1.1 "services.0.url"
     step1.2 = ChangeErrors.errMap
         [("services.0.url", ["validation.url"]),
          ("services.*.url", ["validation.required", "validation.url"])]
     ∧ step2.2 = ChangeErrors.errMap
         [("services.*.url", ["validation.required", "validation.url"])]
     ∧ step2.2 ≠ ChangeErrors.errMap []
     ∧ bagHas step2.1 "services.0.url" = true) :=
  ⟨rfl, rfl, by decide, rfl⟩

/-- C5: the unknown-rule configuration error *is* stored in the error
`MessageBag`.  `validate()` does throw the fatal string
`"bogusRule() is not a validator method"` immediately (it is never a
per-field entry of the validator's own bag), but `Io.validate`'s
catch-all records whatever was thrown: lodash `mapValues` enumerates
the string's indices, so the bag receives one single-character entry
per index (`{"0": ["b"], "1": ["o"], ...}`, 37 entries), and the
string itself is returned as the `errors` field of the `change`
event. -/
theorem c5_unknown_rule_fatal_recorded_into_bag :
    (let res := ioValidate 3 (vObj [("name", vNull)])
       [("name", RulesSpec.rstr "bogusRule")] ⟨[], some "Error"⟩ "name"
     res.2 = ChangeErrors.fatalStr "bogusRule() is not a validator method"
     ∧ lookupKey res.1.entries "0" = some ["b"]
     ∧ res.1.entries.length = 37
     ∧ bagHas res.1 "0" = true) :=
  ⟨rfl, rfl, rfl, rfl⟩

/-! ## Claim C9 (missing nested root skips the whole entry) -/

theorem vFieldStep_skip (inner : Value → List (String × Option RulesSpec) → Except VErr Unit)
    (data : Value) (oi : Option Nat) (field : String) (spec : Option RulesSpec)
    (bag : ErrMap)
    (hdot : containsDot field = true)
    (hundef : jsIndex data ((strSegs field).headD "") = vUndef) :
    vFieldStep inner data oi field spec bag = .ok bag := by
  have hundef2 : jsIndex data ((strSegs field).head?.getD "") = vUndef := by
    simpa using hundef
  simp [vFieldStep, hdot, hundef2]

theorem vFieldsGoF_skip (inner : Value → List (String × Option RulesSpec) → Except VErr Unit)
    (data : Value) (oi : Option Nat) (field : String) (spec : Option RulesSpec)
    (hdot : containsDot field = true)
    (hundef : jsIndex data ((strSegs field).headD "") = vUndef) :
    ∀ (m1 m2 : List (String × Option RulesSpec)) (bag : ErrMap),
      vFieldsGoF inner data oi (m1 ++ (field, spec) :: m2) bag =
        vFieldsGoF inner data oi (m1 ++ m2) bag := by
  intro m1
  induction m1 with
  | nil =>
    intro m2 bag
    show vFieldsGoF inner data oi ((field, spec) :: m2) bag = _
    simp only [vFieldsGoF, vFieldStep_skip inner data oi field spec bag hdot hundef,
      List.nil_append]
  | cons e m1 ih =>
    intro m2 bag
    rcases e with ⟨f, sp⟩
    simp only [List.cons_append, vFieldsGoF]
    cases hstep : vFieldStep inner data oi f sp bag with
    | error e' => rfl
    | ok bag2 => exact ih m2 bag2

/-- C9: for a rule-map entry whose path contains a dot, when the
value stored under the first path segment is `undefined`, `validate`
skips that entry entirely (`continue` before any `_bag` write, before
the pipeline, and so before `required` could fire): the run is
identical to a run without the entry, and a rule map holding only
such an entry passes. -/
theorem c9_missing_nested_root_skips_entry
    (fuel : Nat) (data : Value) (oi : Option Nat) (ct : Option ErrMap)
    (field : String) (spec : Option RulesSpec)
    (m1 m2 : List (String × Option RulesSpec))
    (hdot : containsDot field = true)
    (hundef : jsIndex data ((strSegs field).headD "") = vUndef) :
    vNew fuel data (m1 ++ (field, spec) :: m2) ct oi =
      vNew fuel data (m1 ++ m2) ct oi
    ∧ vNew (fuel + 1) data [(field, spec)] none oi = .ok () := by
  constructor
  · cases fuel with
    | zero => rfl
    | succ f =>
      show vNewBody _ data _ ct oi = vNewBody _ data _ ct oi
      unfold vNewBody
      rw [vFieldsGoF_skip _ data oi field spec hdot hundef]
  · show vNewBody _ data _ none oi = .ok ()
    unfold vNewBody
    rw [show ([(field, spec)] : List (String × Option RulesSpec)) =
      [] ++ (field, spec) :: [] from rfl]
    rw [vFieldsGoF_skip _ data oi field spec hdot hundef]
    rfl

/-- C9 witness: `{"metadata.website": "required"}` against the tree
`{title: "x"}` (no `metadata` key) passes outright. -/
theorem c9_missing_nested_root_skips_entry_witness :
    containsDot "metadata.website" = true
    ∧ jsIndex (vObj [("title", vStr "x")])
        ((strSegs "metadata.website").headD "") = vUndef
    ∧ vNew 3 (vObj [("title", vStr "x")])
        [("metadata.website", some (RulesSpec.rstr "required"))] none none = .ok () :=
  ⟨rfl, rfl,
    (c9_missing_nested_root_skips_entry 2 (vObj [("title", vStr "x")]) none none
      "metadata.website" (some (RulesSpec.rstr "required")) [] [] rfl rfl).2⟩

/-! ## Claim C4 (`nullable` short-circuits the rest of the pipeline) -/

theorem runRule_nullable_falsy (data : Value) (subject : Value) (args : List String)
    (hfalsy : jsTruthy subject = false) :
    runRule data "nullable" subject args = RuleRes.brk := by
  show nullableR subject = RuleRes.brk
  unfold nullableR
  rw [hfalsy]
  rfl

theorem pipelineLoop_nullable_head (data : Value) (field : String) (subject : Value)
    (args : List String) (rest : List RuleT)
    (hfalsy : jsTruthy subject = false) :
    pipelineLoop data field subject (⟨"nullable", args⟩ :: rest) = .ok [] := by
  have h1 : pipelineLoop data field subject (⟨"nullable", args⟩ :: rest) =
      match runRule data "nullable" subject args with
      | RuleRes.pass => pipelineLoop data field subject rest
      | RuleRes.brk => .ok []
      | RuleRes.fail msg =>
        match pipelineLoop data field subject rest with
        | .error e => .error e
        | .ok ms => .ok (replaceFirstS "{name}" (lodashLowerCase field) msg :: ms) := rfl
  rw [h1, runRule_nullable_falsy data subject args hfalsy]

/-- C4 (amended): when the pipeline reaches `nullable` with a falsy
value, `nullable` records nothing and short-circuits every rule that
follows it: the field's messages are exactly those of the pipeline
truncated at that `nullable` (and the fatal unknown-rule behaviour of
the truncated prefix is likewise unchanged); in particular a pipeline
that starts with `nullable` records zero messages.  Rules *before*
the `nullable` still run and can record messages, which is what the
counterexample exhibits against the claim as stated. -/
theorem c4_nullable_short_circuits_rest
    (data : Value) (field : String) (subject : Value)
    (args : List String) (pre rest : List RuleT)
    (hfalsy : jsTruthy subject = false) :
    pipelineLoop data field subject (pre ++ ⟨"nullable", args⟩ :: rest) =
      pipelineLoop data field subject pre
    ∧ pipelineLoop data field subject (⟨"nullable", args⟩ :: rest) = .ok [] := by
  refine ⟨?_, pipelineLoop_nullable_head data field subject args rest hfalsy⟩
  induction pre with
  | nil =>
    simpa using pipelineLoop_nullable_head data field subject args rest hfalsy
  | cons r pre ih =>
    simp only [List.cons_append, pipelineLoop]
    by_cases hk : isKnownMethod (lodashCamelCase r.method)
    · simp only [hk, if_true]
      cases hr : runRule data (lodashCamelCase r.method) subject r.arguments with
      | pass => exact ih
      | brk => rfl
      | fail msg =>
        show (match pipelineLoop data field subject (pre ++ ⟨"nullable", args⟩ :: rest) with
            | Except.error e => Except.error e
            | Except.ok ms =>
              Except.ok (replaceFirstS "{name}" (lodashLowerCase field) msg :: ms)) =
          (match pipelineLoop data field subject pre with
            | Except.error e => Except.error e
            | Except.ok ms =>
              Except.ok (replaceFirstS "{name}" (lodashLowerCase field) msg :: ms))
        rw [ih]
    · simp [hk]

/-- C4 witness: `null` is falsy, and for the pipeline
`required, nullable, url` the messages equal those of `required`
alone, while `nullable, url` records nothing. -/
theorem c4_nullable_short_circuits_rest_witness :
    jsTruthy vNull = false
    ∧ pipelineLoop (vObj []) "x" vNull
        ([⟨"required", []⟩] ++ ⟨"nullable", []⟩ :: [⟨"url", []⟩]) =
        pipelineLoop (vObj []) "x" vNull [⟨"required", []⟩]
    ∧ pipelineLoop (vObj []) "x" vNull (⟨"nullable", []⟩ :: [⟨"url", []⟩]) = .ok [] :=
  ⟨rfl,
    (c4_nullable_short_circuits_rest (vObj []) "x" vNull [] [⟨"required", []⟩]
      [⟨"url", []⟩] rfl).1,
    (c4_nullable_short_circuits_rest (vObj []) "x" vNull [] [⟨"required", []⟩]
      [⟨"url", []⟩] rfl).2⟩

/-- C4 counterexample to the claim as stated: the pipeline
`required|nullable` contains `nullable`, the field's value
(`_.get({}, 'x')`, i.e. `undefined`) is falsy, and yet validation
records one message for the field — the `required` failure from
before the `nullable` — not zero. -/
theorem c4_nullable_zero_messages_cex :
    jsTruthy (lodashGet (vObj []) "x") = false
    ∧ vNew 1 (vObj []) [("x", some (RulesSpec.rstr "required|nullable"))] none none
        = .error (.errs [("x", ["validation.required"])])
    ∧ vNew 1 (vObj []) [("x", some (RulesSpec.rstr "required|nullable"))] none none
        ≠ .ok () :=
  ⟨rfl, rfl, fun h => Except.noConfusion h⟩

/-! ## Claim C6 (label prefixing in `Bag.get`) -/

theorem bagGet_label_first (m : String) (ms : List String) :
    bagGet ⟨[("a", m :: ms)], some "Label"⟩ "a" none =
      some (if containsColon m then m else "Label: " ++ m) := by
  cases hc : containsColon m with
  | true =>
    show some (if ("Label" != "") && !(containsColon m) then "Label" ++ ": " ++ m else m)
      = some m
    rw [hc]
    rfl
  | false =>
    show some (if ("Label" != "") && !(containsColon m) then "Label" ++ ": " ++ m else m)
      = some ("Label: " ++ m)
    rw [hc]
    rfl

/-- C6: after `record({a: x})` (a bare string, coerced into `["x"]`)
on a bag labelled `"Label"`, `get("a")` returns `"Label: x"` when `x`
contains no colon and `x` unchanged when it does; and for any stored
non-empty list, `get` returns its first message, label-adjusted the
same way. -/
theorem c6_bag_get_label_prefixing (x m : String) (ms : List String) :
    bagGet (bagRecord ⟨[], some "Label"⟩ [("a", MsgV.one x)]).1 "a" none =
      some (if containsColon x then x else "Label: " ++ x)
    ∧ bagGet ⟨[("a", m :: ms)], some "Label"⟩ "a" none =
      some (if containsColon m then m else "Label: " ++ m) := by
  constructor
  · have hrec : (bagRecord ⟨[], some "Label"⟩ [("a", MsgV.one x)]).1 =
        ⟨[("a", [x])], some "Label"⟩ := rfl
    rw [hrec]
    exact bagGet_label_first x []
  · exact bagGet_label_first m ms

/-! ## Claim C7 (bag notification discipline and `record` merge) -/

theorem lookupKey_setKey_ne {α : Type} (a k : String) (v : α) (hne : a ≠ k) :
    ∀ (e : List (String × α)), lookupKey (setKey e a v) k = lookupKey e k := by
  have hak : ((a == k) : Bool) = false := by
    simpa using hne
  intro e
  unfold setKey
  by_cases hany : (e.any (fun p => p.1 == a)) = true
  · rw [if_pos hany]
    clear hany
    induction e with
    | nil => rfl
    | cons p es ih =>
      show lookupKey ((if p.1 == a then (a, v) else p) ::
        es.map (fun q => if q.1 == a then (a, v) else q)) k = lookupKey (p :: es) k
      by_cases hp : (p.1 == a) = true
      · have hpa : p.1 = a := by simpa using hp
        have hpk : (p.1 == k) = false := by rw [hpa]; exact hak
        rw [if_pos hp]
        show (if ((a == k) : Bool) then some v
          else lookupKey (es.map (fun q => if q.1 == a then (a, v) else q)) k) =
          (if ((p.1 == k) : Bool) then some p.2 else lookupKey es k)
        rw [hak, hpk]
        simpa using ih
      · rw [if_neg hp]
        show (if ((p.1 == k) : Bool) then some p.2
          else lookupKey (es.map (fun q => if q.1 == a then (a, v) else q)) k) =
          (if ((p.1 == k) : Bool) then some p.2 else lookupKey es k)
        cases hpk : (p.1 == k)
        · simpa using ih
        · rfl
  · rw [if_neg hany]
    clear hany
    induction e with
    | nil =>
      show lookupKey [(a, v)] k = lookupKey ([] : List (String × α)) k
      show (if ((a == k) : Bool) then some v else none) = none
      rw [hak]
      rfl
    | cons p es ih =>
      show lookupKey (p :: (es ++ [(a, v)])) k = lookupKey (p :: es) k
      show (if ((p.1 == k) : Bool) then some p.2 else lookupKey (es ++ [(a, v)]) k) =
        (if ((p.1 == k) : Bool) then some p.2 else lookupKey es k)
      cases hpk : (p.1 == k)
      · simpa using ih
      · rfl

theorem lookupKey_objAssign_not_mem {α : Type} (news : List (String × α)) :
    ∀ (e : List (String × α)) (k : String), (∀ p ∈ news, p.1 ≠ k) →
      lookupKey (objAssign e news) k = lookupKey e k := by
  induction news with
  | nil => intro e k _; rfl
  | cons n news ih =>
    intro e k hk
    show lookupKey (objAssign (setKey e n.1 n.2) news) k = _
    rw [ih (setKey e n.1 n.2) k (fun p hp => hk p (List.mem_cons_of_mem n hp))]
    exact lookupKey_setKey_ne n.1 k n.2 (hk n (List.mem_cons_self n news)) e

/-- C7 (amended): `record`, `replace` and a whole-bag `clear` each
emit exactly one `update` notification, and a single-path `clear`
with a *non-empty* path emits none; but `clear('')` falls into the
falsy-argument branch, so it behaves as a whole-bag clear and emits
one notification (the counterexample to the claim as stated).
`record` merges its entries over the existing bag, coercing a bare
string into a one-element list, and leaves every untouched path's
messages unchanged. -/
theorem c7_bag_update_notifications
    (b : BagS) (msgs : List (String × MsgV)) (msgs2 : List (String × List String))
    (f : String) (hf : f ≠ "") :
    (bagRecord b msgs).2 = 1
    ∧ (bagReplace b msgs2).2 = 1
    ∧ (bagClear b none).2 = 1
    ∧ (bagClear b (some f)).2 = 0
    ∧ (bagClear b (some "")).2 = 1
    ∧ (bagClear b (some "")).1.entries = []
    ∧ (bagRecord b msgs).1.entries =
        objAssign b.entries (msgs.map (fun e => (e.1, coerceMsg e.2)))
    ∧ (∀ k, k ∉ msgs.map Prod.fst →
        lookupKey (bagRecord b msgs).1.entries k = lookupKey b.entries k) := by
  refine ⟨rfl, rfl, rfl, ?_, rfl, rfl, rfl, ?_⟩
  · have hft : (f != "") = true := by simpa using hf
    simp [bagClear, hft]
  · intro k hk
    show lookupKey (objAssign b.entries (msgs.map (fun e => (e.1, coerceMsg e.2)))) k
      = lookupKey b.entries k
    refine lookupKey_objAssign_not_mem _ b.entries k ?_
    intro p hp
    rcases List.mem_map.mp hp with ⟨q, hq, hpq⟩
    intro hcontra
    apply hk
    rw [← hcontra, ← hpq]
    exact List.mem_map_of_mem Prod.fst hq

/-- C7 witness: a non-empty path such as `"a"` really emits nothing
on a single-path clear, while `record`/`replace`/whole-bag `clear`
each emit one. -/
theorem c7_bag_update_notifications_witness :
    ("a" : String) ≠ ""
    ∧ (bagClear ⟨[("a", ["m"]), ("b", ["n"])], some "Error"⟩ (some "a")).2 = 0
    ∧ (bagRecord ⟨[("a", ["m"]), ("b", ["n"])], some "Error"⟩ [("a", MsgV.one "x")]).2 = 1 :=
  ⟨by decide,
    (c7_bag_update_notifications ⟨[("a", ["m"]), ("b", ["n"])], some "Error"⟩
      [("a", MsgV.one "x")] [] "a" (by decide)).2.2.2.1,
    (c7_bag_update_notifications ⟨[("a", ["m"]), ("b", ["n"])], some "Error"⟩
      [("a", MsgV.one "x")] [] "a" (by decide)).1⟩

/-- C7 counterexample to the claim as stated: `clear('')` is a call
with a path argument, yet it emits one `update` notification (and
wipes the whole bag) because the empty string is falsy. -/
theorem c7_clear_empty_path_cex :
    (bagClear ⟨[("a", ["m"])], some "Error"⟩ (some "")).2 = 1
    ∧ ¬ ((bagClear ⟨[("a", ["m"])], some "Error"⟩ (some "")).2 = 0)
    ∧ (bagClear ⟨[("a", ["m"])], some "Error"⟩ (some "")).1.entries = [] :=
  ⟨rfl, by decide, rfl⟩

/-! ## Claim C10 (only the first `*` is ever substituted) -/

/-- Number of literal `*` characters in a path string. -/
def countStar (s : String) : Nat := s.toList.count '*'

theorem count_replaceFirstL_star (rep : List Char) (hrep : '*' ∉ rep) :
    ∀ (s : List Char), '*' ∈ s →
      (replaceFirstL ['*'] rep s).count '*' = s.count '*' - 1 := by
  intro s
  induction s with
  | nil => intro h; simp at h
  | cons x xs ih =>
    intro hmem
    by_cases hx : x = '*'
    · subst hx
      have hpre : hasPrefixCh ['*'] ('*' :: xs) = true := by
        simp [hasPrefixCh]
      show (if hasPrefixCh ['*'] ('*' :: xs) then
          rep ++ ('*' :: xs).drop (List.length ['*'])
        else '*' :: replaceFirstL ['*'] rep xs).count '*' = ('*' :: xs).count '*' - 1
      rw [hpre]
      simp only [if_true, List.length_singleton, List.drop_succ_cons, List.drop_zero]
      rw [List.count_append, List.count_eq_zero.mpr hrep, List.count_cons_self]
      omega
    · have hpre : hasPrefixCh ['*'] (x :: xs) = false := by
        simp [hasPrefixCh]
        exact fun h => hx h.symm
      have hxs : '*' ∈ xs := by
        rcases List.mem_cons.mp hmem with h | h
        · exact absurd h.symm hx
        · exact h
      show (if hasPrefixCh ['*'] (x :: xs) then
          rep ++ (x :: xs).drop (List.length ['*'])
        else x :: replaceFirstL ['*'] rep xs).count '*' = (x :: xs).count '*' - 1
      rw [hpre]
      simp only [Bool.false_eq_true, if_false]
      have hxne : ¬ (x = '*') := hx
      rw [List.count_cons_of_ne (by simpa using fun h => hx h.symm) xs,
        List.count_cons_of_ne (by simpa using fun h => hx h.symm) (replaceFirstL ['*'] rep xs)]
      have := ih hxs
      have hpos : 0 < xs.count '*' := List.count_pos_iff.mpr hxs
      omega

theorem countStar_replaceFirstS (rep : String) (hrep : '*' ∉ rep.toList)
    (s : String) (hs : 0 < countStar s) :
    countStar (replaceFirstS "*" rep s) = countStar s - 1 := by
  have hmem : '*' ∈ s.toList := List.count_pos_iff.mp hs
  show (replaceFirstL ['*'] rep.toList s.toList).count '*' = s.toList.count '*' - 1
  exact count_replaceFirstL_star rep.toList hrep s.toList hmem

/-- C10: `Bag.get`'s key substitution, `Io.createFeedback`'s feedback
key and the validator's concrete error key are all built with JS
`field.replace('*', i)`, which substitutes only the *first* `*`
(the substituted index itself contains only digits); hence for any
path with two or more wildcards the resulting key still contains a
literal `*` — it is never a fully concrete path. -/
theorem c10_only_first_star_substituted
    (field : String) (oi : Option Nat) (i j k : Nat)
    (h2 : 2 ≤ countStar field) :
    (countStar (bagKeyOf field (some j)) = countStar field - 1
      ∧ '*' ∈ (bagKeyOf field (some j)).toList)
    ∧ (countStar (feedbackKey field i) = countStar field - 1
      ∧ '*' ∈ (feedbackKey field i).toList)
    ∧ (countStar (wildcardConcreteKey field oi k) = countStar field - 1
      ∧ '*' ∈ (wildcardConcreteKey field oi k).toList) := by
  have hone : ∀ n : Nat, countStar (replaceFirstS "*" (natToStr n) field) = countStar field - 1 :=
    fun n => countStar_replaceFirstS (natToStr n) (star_not_mem_natToChars n) field (by omega)
  have hmem : ∀ n : Nat, '*' ∈ (replaceFirstS "*" (natToStr n) field).toList := by
    intro n
    refine List.count_pos_iff.mp ?_
    show 0 < countStar (replaceFirstS "*" (natToStr n) field)
    rw [hone n]
    omega
  exact ⟨⟨hone j, hmem j⟩, ⟨hone i, hmem i⟩, ⟨hone (resolveIdx oi k), hmem (resolveIdx oi k)⟩⟩

/-- C10 witness: the doubly wild path `a.*.b.*` keeps a `*` in all
three key constructions. -/
theorem c10_only_first_star_substituted_witness :
    2 ≤ countStar "a.*.b.*"
    ∧ '*' ∈ (bagKeyOf "a.*.b.*" (some 0)).toList
    ∧ '*' ∈ (feedbackKey "a.*.b.*" 0).toList
    ∧ '*' ∈ (wildcardConcreteKey "a.*.b.*" none 0).toList :=
  ⟨by decide,
    (c10_only_first_star_substituted "a.*.b.*" none 0 0 0 (by decide)).1.2,
    (c10_only_first_star_substituted "a.*.b.*" none 0 0 0 (by decide)).2.1.2,
    (c10_only_first_star_substituted "a.*.b.*" none 0 0 0 (by decide)).2.2.2⟩

/-! ## PathWatcher (`src/io.js` lines 202–250)

`startWatching` walks `Object.entries`, mutating a shared `path`
array: it pushes the field, recurses with a *copy* for plain objects
(then pops), recurses per element for arrays of records (then pops),
joins the current `path` as the watch key (deduplicated against the
set built so far), and pops once more.  The model threads the `path`
array and the accumulated watcher-path list explicitly; the observed
change callback always runs `stopWatching()` (clearing the set)
followed by `startWatching(this.form)`, so the watch set after any
observed mutation is exactly a fresh walk of the post-mutation
tree from an empty set. -/

/-- `Io.isObject(value)`: a non-array, non-null `'object'`. -/
def isObjectV : Value → Bool
  | vObj _ => true
  | _ => false

/-- `Io.isArrayOfObjects(value)`: non-empty array whose first element
is a plain keyed map. -/
def isArrayOfObjectsV : Value → Bool
  | vArr (x :: _) => isObjectV x
  | _ => false

/-- Elements of an array value. -/
def arrElems : Value → List Value
  | vArr xs => xs
  | _ => []

/-- `Array.prototype.pop()`'s effect on the path array (no-op on an
empty array). -/
def jsPop (l : List String) : List String := l.dropLast

/-- The body of `startWatching(object, path)` over the entry list of
`object`, threading the mutable `path` and the accumulated watcher
path set `ws` (`this._watchers`).  The fuel bounds the tree depth;
the concrete evaluations below supply ample fuel. -/
def swEntriesF : Nat → List (String × Value) → List String → List String → List String
  | 0, _, _, ws => ws
  | f + 1, entries, path, ws =>
    match entries with
    | [] => ws
    | (field, value) :: rest =>
      let path1 := path ++ [field]
      let ws1 := if isObjectV value then swEntriesF f (jsEntries value) path1 ws else ws
      let path2 := if isObjectV value then jsPop path1 else path1
      let ws2 :=
        if isArrayOfObjectsV value then
          (arrElems value).enum.foldl
            (fun w ie => swEntriesF f (jsEntries ie.2) (path2 ++ [natToStr ie.1]) w) ws1
        else ws1
      let path3 := if isArrayOfObjectsV value then jsPop path2 else path2
      let joined := strJoin path3
      let ws3 := if joined ∈ ws2 then ws2 else ws2 ++ [joined]
      swEntriesF f rest (jsPop path3) ws3

/-- `startWatching(this.form)` from a clean slate: the watcher path
set the engine holds after any observed change or `update()`. -/
def startWatchingModel (fuel : Nat) (form : Value) : List String :=
  swEntriesF fuel (jsEntries form) [] []

/-- The claim's leaf-path walk, stated from the spec: a leaf is any
value that is not a plain keyed map and not an array whose first
element is a plain keyed map; maps recurse by key, arrays of records
recurse by element index, and every leaf contributes its dot-joined
concrete path.  (This is the comparison definition the watch set is
measured against, not a transcription of the code.) -/
def specLeafPaths : Nat → Value → List String → List String
  | 0, _, _ => []
  | f + 1, v, path =>
    match v with
    | vObj fs => fs.foldl (fun acc kv => acc ++ specLeafPaths f kv.2 (path ++ [kv.1])) []
    | vArr (x :: xs) =>
      if isObjectV x then
        ((x :: xs).enum).foldl
          (fun acc ie => acc ++ specLeafPaths f ie.2 (path ++ [natToStr ie.1])) []
      else [strJoin path]
    | _ => [strJoin path]

/-- C2: the watch-set invariant fails.  The object branch of
`startWatching` pops the shared `path` once itself and the loop tail
pops it again, so for the tree `{a: {b: {c: 1}, d: 2}}` the freshly
rebuilt watch set is `["a.b.c", "a", "d", ""]`: it watches the
non-leaf path `"a"` and the empty path `""`, misses the leaf `"a.d"`
(watching a stray `"d"` instead), while the leaf concrete paths of
the same tree are exactly `["a.b.c", "a.d"]`. -/
theorem c2_watch_set_not_leaf_paths :
    (let tree := vObj [("a", vObj [("b", vObj [("c", vNum 1)]), ("d", vNum 2)])]
     startWatchingModel 30 tree = ["a.b.c", "a", "d", ""]
     ∧ specLeafPaths 30 tree [] = ["a.b.c", "a.d"]
     ∧ "a.d" ∉ startWatchingModel 30 tree
     ∧ "" ∈ startWatchingModel 30 tree
     ∧ "a" ∈ startWatchingModel 30 tree
     ∧ "a" ∉ specLeafPaths 30 tree []) :=
  ⟨rfl, rfl, by decide, by decide, by decide, by decide⟩

/-! ## DebounceRegistry (`src/io.js` lines 255–283)

`resetInputTimeout(path)` finds the first pending entry for `path`,
cancels its timer, splices it out and pushes a fresh entry whose
timer fires `2000` time units later.  Time is modelled discretely: a
trace interleaves observed changes (which replace the tree/bag state
and re-arm the path's timer, as `onChange` does) with timer expiries;
an expiry for `(path, t)` fires only if that armed entry is still
present, and its payload is computed from the state *at fire time* —
the armed entry holds nothing but the path and deadline, mirroring
the source closure, which captures only `path` and re-reads
`this.form` and the bags when it runs. -/

/-- The fixed debounce interval (`setTimeout(..., 2000)`). -/
def debounceInterval : Nat := 2000

/-- The `clearTimeout` + `splice` pair: drop the first entry for
`path` (no-op when none is pending). -/
def removeTimeout : List (String × Nat) → String → List (String × Nat)
  | [], _ => []
  | e :: es, p => if e.1 == p then es else removeTimeout es p |> (e :: ·)

/-- `Io.resetInputTimeout(path)` applied at time `now`. -/
def resetInputTimeoutM (l : List (String × Nat)) (p : String) (now : Nat) :
    List (String × Nat) :=
  removeTimeout l p ++ [(p, now + debounceInterval)]

/-- The payload of a `paused` / `paused:<path>` event. -/
structure PauseEv where
  path : String
  value : Value
  error : Option String
  success : Option String

/-- The orchestrator state the timers read from. -/
structure IoTimerState where
  form : Value
  errB : BagS
  sucB : BagS
  timeouts : List (String × Nat)

/-- `{path, value: _.get(this.form, path), error: this.errors.get(path),
success: this.success.get(path)}`, read from the given state. -/
def pausedPayload (s : IoTimerState) (p : String) : PauseEv :=
  ⟨p, lodashGet s.form p, bagGet s.errB p none, bagGet s.sucB p none⟩

/-- One trace event: an observed leaf change at time `t` (carrying
the post-mutation tree and bags, and re-arming `p`'s timer), or the
expiry of the timer armed for `p` at deadline `t`. -/
inductive DebEv where
  | changed (form : Value) (errB sucB : BagS) (p : String) (t : Nat)
  | expire (p : String) (t : Nat)

/-- One step of the discrete-time semantics, returning the emitted
`paused` payloads (`paused` and `paused:<path>` carry two identical
payloads, as the source builds the same object twice). -/
def debStep (s : IoTimerState) : DebEv → IoTimerState × List PauseEv
  | .changed f e su p t => (⟨f, e, su, resetInputTimeoutM s.timeouts p t⟩, [])
  | .expire p t =>
    (s, if (p, t) ∈ s.timeouts then [pausedPayload s p, pausedPayload s p] else [])

/-- Run a trace, concatenating emitted payloads. -/
def debRun (s : IoTimerState) : List DebEv → IoTimerState × List PauseEv
  | [] => (s, [])
  | ev :: evs =>
    let r1 := debStep s ev
    let r2 := debRun r1.1 evs
    (r2.1, r1.2 ++ r2.2)

/-- The time of the last change to `p` in a trace, if any. -/
def lastChangeTime (p : String) : List DebEv → Option Nat
  | [] => none
  | ev :: evs =>
    match lastChangeTime p evs with
    | some t => some t
    | none =>
      match ev with
      | .changed _ _ _ q t => if q = p then some t else none
      | .expire _ _ => none

/-- The pending entries for one path. -/
def pTimeouts (p : String) (l : List (String × Nat)) : List (String × Nat) :=
  l.filter (fun e => e.1 == p)

theorem pTimeouts_removeTimeout_self (p : String) :
    ∀ (l : List (String × Nat)), (pTimeouts p l).length ≤ 1 →
      pTimeouts p (removeTimeout l p) = [] := by
  intro l
  induction l with
  | nil => intro _; rfl
  | cons e es ih =>
    intro h
    by_cases hep : (e.1 == p) = true
    · show pTimeouts p (if e.1 == p then es else removeTimeout es p |> (e :: ·)) = []
      rw [if_pos hep]
      have hlen : (pTimeouts p (e :: es)).length = (pTimeouts p es).length + 1 := by
        simp [pTimeouts, List.filter_cons, hep]
      have : (pTimeouts p es).length = 0 := by omega
      simpa [pTimeouts, List.length_eq_zero] using this
    · show pTimeouts p (if e.1 == p then es else removeTimeout es p |> (e :: ·)) = []
      rw [if_neg hep]
      have hskip : pTimeouts p (e :: es) = pTimeouts p es := by
        simp [pTimeouts, List.filter_cons, hep]
      have h2 : (pTimeouts p es).length ≤ 1 := by
        rw [← hskip]; exact h
      have := ih h2
      simpa [pTimeouts, List.filter_cons, hep] using this

theorem pTimeouts_removeTimeout_other (p q : String) (hqp : q ≠ p) :
    ∀ (l : List (String × Nat)),
      pTimeouts q (removeTimeout l p) = pTimeouts q l := by
  intro l
  induction l with
  | nil => rfl
  | cons e es ih =>
    by_cases hep : (e.1 == p) = true
    · show pTimeouts q (if e.1 == p then es else removeTimeout es p |> (e :: ·)) = _
      rw [if_pos hep]
      have hea : e.1 = p := by simpa using hep
      have heq : (e.1 == q) = false := by
        simp [hea]
        exact fun h => hqp h.symm
      simp [pTimeouts, List.filter_cons, heq]
    · show pTimeouts q (if e.1 == p then es else removeTimeout es p |> (e :: ·)) = _
      rw [if_neg hep]
      cases heq : (e.1 == q) <;>
        simp [pTimeouts, List.filter_cons, heq] <;>
        simpa [pTimeouts] using ih

theorem pTimeouts_reset_self (l : List (String × Nat)) (p : String) (now : Nat)
    (h : (pTimeouts p l).length ≤ 1) :
    pTimeouts p (resetInputTimeoutM l p now) = [(p, now + debounceInterval)] := by
  unfold resetInputTimeoutM pTimeouts
  rw [List.filter_append]
  have h1 : (removeTimeout l p).filter (fun e => e.1 == p) = [] :=
    pTimeouts_removeTimeout_self p l h
  rw [h1]
  simp

theorem pTimeouts_reset_other (l : List (String × Nat)) (p q : String) (now : Nat)
    (hqp : q ≠ p) :
    pTimeouts q (resetInputTimeoutM l p now) = pTimeouts q l := by
  unfold resetInputTimeoutM pTimeouts
  rw [List.filter_append]
  have h2 : ((((p, now + debounceInterval) : String × Nat).1 == q) = false) :=
    beq_eq_false_iff_ne.mpr (fun h => hqp h.symm)
  have h1 : pTimeouts q (removeTimeout l p) = pTimeouts q l :=
    pTimeouts_removeTimeout_other p q hqp l
  unfold pTimeouts at h1
  rw [h1]
  simp [List.filter_cons, h2]

theorem debRun_pTimeouts (p : String) :
    ∀ (evs : List DebEv) (s : IoTimerState), (pTimeouts p s.timeouts).length ≤ 1 →
      pTimeouts p (debRun s evs).1.timeouts =
        (match lastChangeTime p evs with
          | some tc => [(p, tc + debounceInterval)]
          | none => pTimeouts p s.timeouts) := by
  intro evs
  induction evs with
  | nil => intro s _; rfl
  | cons ev evs ih =>
    intro s hlen
    cases ev with
    | changed f e su q t =>
      show pTimeouts p (debRun ⟨f, e, su, resetInputTimeoutM s.timeouts q t⟩ evs).1.timeouts = _
      by_cases hq : q = p
      · subst hq
        have hset : pTimeouts q (resetInputTimeoutM s.timeouts q t) =
            [(q, t + debounceInterval)] := pTimeouts_reset_self s.timeouts q t hlen
        have hrec := ih ⟨f, e, su, resetInputTimeoutM s.timeouts q t⟩
          (by rw [hset]; simp)
        rw [hrec]
        show _ = (match lastChangeTime q (DebEv.changed f e su q t :: evs) with
          | some tc => [(q, tc + debounceInterval)]
          | none => pTimeouts q s.timeouts)
        show _ = (match (match lastChangeTime q evs with
          | some tc => some tc
          | none => if q = q then some t else none) with
          | some tc => [(q, tc + debounceInterval)]
          | none => pTimeouts q s.timeouts)
        cases hlast : lastChangeTime q evs
        · simp [hlast, hset]
        · simp [hlast]
      · have hset : pTimeouts p (resetInputTimeoutM s.timeouts q t) =
            pTimeouts p s.timeouts :=
          pTimeouts_reset_other s.timeouts q p t (fun h => hq h.symm)
        have hrec := ih ⟨f, e, su, resetInputTimeoutM s.timeouts q t⟩
          (by rw [hset]; exact hlen)
        rw [hrec]
        show _ = (match (match lastChangeTime p evs with
          | some tc => some tc
          | none => if q = p then some t else none) with
          | some tc => [(p, tc + debounceInterval)]
          | none => pTimeouts p s.timeouts)
        cases hlast : lastChangeTime p evs
        · simp [hlast, hq, hset]
        · simp [hlast]
    | expire q t =>
      have hrec := ih s hlen
      show pTimeouts p (debRun s evs).1.timeouts = _
      rw [hrec]
      show _ = (match (match lastChangeTime p evs with
        | some tc => some tc
        | none => none) with
        | some tc => [(p, tc + debounceInterval)]
        | none => pTimeouts p s.timeouts)
      cases hlast : lastChangeTime p evs <;> simp [hlast]

/-- C8: debounce timing and payload freshness.  (i) Re-arming a path
replaces exactly its own pending entry with deadline `now + 2000` and
leaves every other path's entries alone.  (ii) Starting from an empty
registry, a `paused`/`paused:<path>` expiry that actually fires at
time `t` satisfies `t = tc + 2000` where `tc` is the time of the
*last* change to that path in the preceding trace — so nothing fires
earlier than the interval after the most recent change, and an
intervening change (which re-arms the timer) postpones the fire — and
its payload is computed from the tree and bags as of fire time, not
as of arm time. -/
theorem c8_debounce_timing_and_freshness :
    (∀ (l : List (String × Nat)) (p : String) (now : Nat),
      (pTimeouts p l).length ≤ 1 →
        pTimeouts p (resetInputTimeoutM l p now) = [(p, now + debounceInterval)]
        ∧ ∀ q, q ≠ p → pTimeouts q (resetInputTimeoutM l p now) = pTimeouts q l)
    ∧ (∀ (form0 : Value) (e0 s0 : BagS) (pre : List DebEv) (p : String) (t : Nat),
        ((debStep (debRun ⟨form0, e0, s0, []⟩ pre).1 (.expire p t)).2).length ≠ 0 →
        ∃ tc, lastChangeTime p pre = some tc
          ∧ t = tc + debounceInterval
          ∧ (debStep (debRun ⟨form0, e0, s0, []⟩ pre).1 (.expire p t)).2 =
              [pausedPayload (debRun ⟨form0, e0, s0, []⟩ pre).1 p,
               pausedPayload (debRun ⟨form0, e0, s0, []⟩ pre).1 p]) := by
  constructor
  · intro l p now h
    exact ⟨pTimeouts_reset_self l p now h,
      fun q hq => pTimeouts_reset_other l p q now hq⟩
  · intro form0 e0 s0 pre p t hfire
    have hmem : ((p, t) : String × Nat) ∈ (debRun ⟨form0, e0, s0, []⟩ pre).1.timeouts := by
      by_contra hno
      apply hfire
      show (if ((p, t) : String × Nat) ∈ (debRun ⟨form0, e0, s0, []⟩ pre).1.timeouts
        then [pausedPayload (debRun ⟨form0, e0, s0, []⟩ pre).1 p,
          pausedPayload (debRun ⟨form0, e0, s0, []⟩ pre).1 p] else []).length = 0
      rw [if_neg hno]
      rfl
    have hfilter : ((p, t) : String × Nat) ∈
        pTimeouts p (debRun ⟨form0, e0, s0, []⟩ pre).1.timeouts :=
      List.mem_filter.mpr ⟨hmem, by simp⟩
    have hinv := debRun_pTimeouts p pre ⟨form0, e0, s0, []⟩ (by simp [pTimeouts])
    rw [hinv] at hfilter
    cases hlast : lastChangeTime p pre with
    | none => rw [hlast] at hfilter; simp [pTimeouts] at hfilter
    | some tc =>
      rw [hlast] at hfilter
      have ht : t = tc + debounceInterval := by
        simpa using hfilter
      refine ⟨tc, rfl, ht, ?_⟩
      show (if ((p, t) : String × Nat) ∈ (debRun ⟨form0, e0, s0, []⟩ pre).1.timeouts
        then [pausedPayload (debRun ⟨form0, e0, s0, []⟩ pre).1 p,
          pausedPayload (debRun ⟨form0, e0, s0, []⟩ pre).1 p] else []) = _
      rw [if_pos hmem]

/-- C8 witness: after changes to `"a"` at times 0 and 1000, the only
fire is at 3000 (`= 1000 + 2000`), and re-arming from an empty
registry yields the single entry `("a", now + 2000)`. -/
theorem c8_debounce_timing_and_freshness_witness :
    pTimeouts "a" (resetInputTimeoutM [] "a" 5) = [("a", 5 + debounceInterval)]
    ∧ (∃ tc, lastChangeTime "a"
          [DebEv.changed (vObj []) ⟨[], none⟩ ⟨[], none⟩ "a" 0,
           DebEv.changed (vObj []) ⟨[], none⟩ ⟨[], none⟩ "a" 1000] = some tc
        ∧ 3000 = tc + debounceInterval
        ∧ (debStep (debRun ⟨vObj [], ⟨[], none⟩, ⟨[], none⟩, []⟩
            [DebEv.changed (vObj []) ⟨[], none⟩ ⟨[], none⟩ "a" 0,
             DebEv.changed (vObj []) ⟨[], none⟩ ⟨[], none⟩ "a" 1000]).1
            (.expire "a" 3000)).2 =
          [pausedPayload (debRun ⟨vObj [], ⟨[], none⟩, ⟨[], none⟩, []⟩
              [DebEv.changed (vObj []) ⟨[], none⟩ ⟨[], none⟩ "a" 0,
               DebEv.changed (vObj []) ⟨[], none⟩ ⟨[], none⟩ "a" 1000]).1 "a",
           pausedPayload (debRun ⟨vObj [], ⟨[], none⟩, ⟨[], none⟩, []⟩
              [DebEv.changed (vObj []) ⟨[], none⟩ ⟨[], none⟩ "a" 0,
               DebEv.changed (vObj []) ⟨[], none⟩ ⟨[], none⟩ "a" 1000]).1 "a"]) :=
  ⟨(c8_debounce_timing_and_freshness.1 [] "a" 5 (by simp [pTimeouts])).1,
    c8_debounce_timing_and_freshness.2 (vObj []) ⟨[], none⟩ ⟨[], none⟩
      [DebEv.changed (vObj []) ⟨[], none⟩ ⟨[], none⟩ "a" 0,
       DebEv.changed (vObj []) ⟨[], none⟩ ⟨[], none⟩ "a" 1000] "a" 3000
      (by decide)⟩
